import Mathlib

/-
Verification of the airfield-timezones extractor.

The development shallowly embeds the program's core (src/main.rs,
src/pdf_reading/mod.rs) in Lean:

* Rust strings are modelled as `List Char`; byte strings as `List Nat`
  (each element is a `u8` value).
* `i8`/`u32` arithmetic is modelled on `Int`/`Nat`; the `i8` range check
  performed by `str::parse::<i8>` is made explicit.
* Coordinate scalars (`NoNonsenseF32` in the source) are modelled as `Int`
  wherever only their equality and ordering matter (the accumulator keys,
  the text matrix).  The finiteness wrapper itself is modelled separately
  at the IEEE-754 bit level for the round-trip property.
* Panics (`expect`/`unwrap`) are modelled as `Except`/`Option` failures.
* External collaborators (the pdf crate's string decoding, the regex
  engine, the generated encoding tables) are parameters: they enter the
  definitions as plain functions.
-/

namespace AirfieldTimezones

/-! ## Offset normalization (src/main.rs, `normalize_offset` and
`normalize_reverse_offset`) -/

/-- The en dash U+2013; `offset.replace('\u{2013}', "-")` in the source. -/
def enDash : Char := Char.ofNat 8211

/-- `offset.replace('\u{2013}', "-")`: every en dash becomes an ASCII minus. -/
def replace_en_dash (s : List Char) : List Char :=
  s.map (fun c => if c = enDash then '-' else c)

/-- `if mod_offset.starts_with('+') || mod_offset.starts_with(' ')
\x7b mod_offset.remove(0); \x7d`: drop one leading plus or space. -/
def drop_leading_sign (s : List Char) : List Char :=
  match s with
  | c :: rest => if c = '+' ∨ c = ' ' then rest else c :: rest
  | [] => []

/-- Decimal value of a digit string. -/
def digits_value (ds : List Char) : Nat :=
  ds.foldl (fun a c => a * 10 + (c.toNat - 48)) 0

/-- `str::parse::<i8>`: an optional sign, then one or more ASCII digits,
with the result required to fit in `i8`.  `none` models the `Err` case
(which the source turns into a panic via `unwrap`). -/
def parse_i8 (s : List Char) : Option Int :=
  let signAndDigits : Int × List Char :=
    match s with
    | '+' :: rest => (1, rest)
    | '-' :: rest => (-1, rest)
    | _ => (1, s)
  let sign := signAndDigits.1
  let ds := signAndDigits.2
  if ds = [] then none
  else if ds.all (fun c => c.isDigit) then
    let v : Int := sign * (digits_value ds : Int)
    if -128 ≤ v ∧ v ≤ 127 then some v else none
  else none

/-- `normalize_offset` from src/main.rs. -/
def normalize_offset (s : List Char) : Option Int :=
  parse_i8 (drop_leading_sign (replace_en_dash s))

/-- `normalize_reverse_offset` from src/main.rs: the single trailing sign
character is rotated to the front, then `normalize_offset` is applied.
On the empty string the source's index arithmetic underflows (a panic),
modelled as `none`. -/
def normalize_reverse_offset (s : List Char) : Option Int :=
  match s.getLast? with
  | none => none
  | some c => normalize_offset (c :: s.dropLast)

/-! ## Daylight-offset correction (src/main.rs, the `dst_offset`
computation inside `main`) -/

/-- The correction closure
`|doff| if offset < -2 && doff > 2 \x7b -doff \x7d else \x7b doff \x7d`. -/
def correct_dst (offset doff : Int) : Int :=
  if offset < -2 ∧ doff > 2 then -doff else doff

/-- The whole `dst_offset` computation:
`caps.name("utcdst").map(normalize_offset).map(correction)
.or_else(|| caps.name("dstutc").map(normalize_reverse_offset))`.
The outer `Option` models a normalization panic; the inner `Option` is the
`Option<i8>` value of `dst_offset` itself. -/
def compute_dst_offset (offset : Int) (utcdst dstutc : Option (List Char)) :
    Option (Option Int) :=
  match utcdst with
  | some s => (normalize_offset s).map (fun d => some (correct_dst offset d))
  | none =>
    match dstutc with
    | some s => (normalize_reverse_offset s).map some
    | none => some none

/-! ## Time-zone matching (src/main.rs, the loop over
`name_to_timezone.values()`) -/

/-- `TimeZoneDefinition` from src/main.rs.  The `icao_match` regex is an
external collaborator and is modelled as its match predicate. -/
structure TimeZoneDefinition where
  icao_match : Option (List Char → Bool)
  iana : List Char
  utc_standard : Int
  utc_daylight : Option Int

/-- The matching loop from `main`: skip a definition whose `icao_match`
is present and does not match; stop at the first definition whose offsets
both compare equal. -/
def match_timezone : List TimeZoneDefinition → List Char → Int → Option Int →
    Option (List Char)
  | [], _, _, _ => none
  | tz :: rest, icao, off, dst =>
    match tz.icao_match with
    | some m =>
      if m icao = false then
        match_timezone rest icao off dst
      else if off = tz.utc_standard ∧ dst = tz.utc_daylight then
        some tz.iana
      else
        match_timezone rest icao off dst
    | none =>
      if off = tz.utc_standard ∧ dst = tz.utc_daylight then
        some tz.iana
      else
        match_timezone rest icao off dst

/-- The two `println!` forms: `"<icao> <zone>"` or `"<icao> ?"`. -/
def emit_record (icao : List Char) (zone : Option (List Char)) : List Char :=
  match zone with
  | some z => icao ++ ' ' :: z
  | none => icao ++ [' ', '?']

/-- Specification-side predicate: a definition matches when its
`icao_match` (if present) accepts the code and both offsets compare equal.
Used to state the loop as a single `List.find?`. -/
def tz_pred (icao : List Char) (off : Int) (dst : Option Int)
    (tz : TimeZoneDefinition) : Bool :=
  (match tz.icao_match with | some m => m icao | none => true)
    && (off == tz.utc_standard) && (dst == tz.utc_daylight)

/-! ## The finite-float wrapper (src/pdf_reading/mod.rs, `NoNonsenseF32`),
modelled at the IEEE-754 single-precision bit level: a float is its 32-bit
pattern, and `f32::is_finite` holds exactly when the 8 exponent bits
(bits 23..30) are not all ones. -/

/-- `f32::is_finite` on the bit pattern. -/
def f32_is_finite (bits : Nat) : Bool :=
  decide ((bits / 2 ^ 23) % 2 ^ 8 ≠ 255)

/-- `NoNonsenseF32`: a newtype around the float (here: its bit pattern). -/
structure NoNonsenseF32 where
  bits : Nat
deriving DecidableEq

/-- `TryFrom<f32> for NoNonsenseF32`: `Ok` on finite input, `Err(value)`
otherwise. -/
def NoNonsenseF32.try_from (b : Nat) : Except Nat NoNonsenseF32 :=
  if f32_is_finite b then .ok ⟨b⟩ else .error b

/-- `From<NoNonsenseF32> for f32`: unwraps the stored value. -/
def f32_from (v : NoNonsenseF32) : Nat :=
  v.bits

/-! ## Character decoding (src/pdf_reading/mod.rs, `font_decode`).

The five built-in byte→character tables and the glyph-name→character
table are generated external assets (build.rs); they are parameters
here, gathered in `EncodingTables`.  Maps are modelled as functions into
`Option`. -/

/-- `pdf::encoding::BaseEncoding`, as matched by `font_decode`. -/
inductive BaseEncoding where
  | standardEncoding
  | symbolEncoding
  | macRomanEncoding
  | winAnsiEncoding
  | macExpertEncoding
  | identityH
  | noEncoding
  | other (name : List Char)
deriving DecidableEq

/-- A font's encoding entry: base identifier plus the `differences`
override list of `(byte, glyph name)` pairs.  The byte is an `i32` in the
pdf crate, hence `Nat` with an explicit `< 256` conversion check. -/
structure Encoding where
  base : BaseEncoding
  differences : List (Nat × String)

/-- The generated lookup tables (external assets, see build.rs). -/
structure EncodingTables where
  standard_encoding : Nat → Option Char
  symbol_encoding : Nat → Option Char
  mac_roman_encoding : Nat → Option Char
  win_ansi_encoding : Nat → Option Char
  name_to_character : String → Option Char

/-- The font metadata consumed by `font_decode`.  `to_unicode` models
`Font::to_unicode` returning `Option<Result<ToUnicodeMap>>`: the outer
`Option` is map presence, the inner `Option` is the `Result` (`none` is
the `Err` that the source panics on).  The map sends a 16-bit code to a
text fragment. -/
structure Font where
  to_unicode : Option (Option (Nat → Option (List Char)))
  encoding : Option Encoding

/-- Failures of `font_decode` (all are panics in the source). -/
inductive DecodeError where
  | toUnicodeFailure
  | sliceOutOfBounds
  | unmappableCode
  | badDifferenceByte
deriving DecidableEq

/-- The base-table selection `match encoding.base`: four supported tables;
the remaining kinds make `font_decode` return `None`. -/
def base_table (tables : EncodingTables) : BaseEncoding → Option (Nat → Option Char)
  | .standardEncoding => some tables.standard_encoding
  | .symbolEncoding => some tables.symbol_encoding
  | .macRomanEncoding => some tables.mac_roman_encoding
  | .winAnsiEncoding => some tables.win_ansi_encoding
  | .macExpertEncoding => none
  | .identityH => none
  | .noEncoding => none
  | .other _ => none

/-- `HashMap::insert` on a map modelled as a function. -/
def map_insert (m : Nat → Option Char) (b : Nat) (c : Char) : Nat → Option Char :=
  fun b2 => if b2 = b then some c else m b2

/-- The `for (byte, char_name) in &encoding.differences` loop: convert the
byte (panicking when it does not fit in `u8`), look the glyph name up in
the name table, and insert on success. -/
def apply_differences (ntc : String → Option Char) (m : Nat → Option Char) :
    List (Nat × String) → Except DecodeError (Nat → Option Char)
  | [] => .ok m
  | (b, n) :: rest =>
    if b < 256 then
      match ntc n with
      | some c => apply_differences ntc (map_insert m b c) rest
      | none => apply_differences ntc m rest
    else .error .badDifferenceByte

/-- The single-byte decoding loop: bytes with no mapping are silently
dropped. -/
def decode_single (m : Nat → Option Char) (bytes : List Nat) : List Char :=
  bytes.filterMap m

/-- The direct-map loop `for i in (0..text_bytes.len()).step_by(2)`:
each step slices two bytes (out of range is a panic), forms the
big-endian 16-bit code, and looks it up (a miss is a panic). -/
def decode_direct (itu : Nat → Option (List Char)) :
    List Nat → Except DecodeError (List Char)
  | [] => .ok []
  | [_] => .error .sliceOutOfBounds
  | b0 :: b1 :: rest =>
    match itu (b0 * 256 + b1) with
    | none => .error .unmappableCode
    | some s =>
      match decode_direct itu rest with
      | .error e => .error e
      | .ok r => .ok (s ++ r)

/-- `font_decode` from src/pdf_reading/mod.rs.  `.ok none` is the
source's `None` return ("produces no text"); errors are its panics. -/
def font_decode (tables : EncodingTables) (fontOpt : Option Font)
    (bytes : List Nat) : Except DecodeError (Option (List Char)) :=
  match fontOpt with
  | none => .ok none
  | some font =>
    match font.to_unicode with
    | some ituResult =>
      match ituResult with
      | none => .error .toUnicodeFailure
      | some itu => (decode_direct itu bytes).map some
    | none =>
      match font.encoding with
      | some enc =>
        match base_table tables enc.base with
        | none => .ok none
        | some bt =>
          (apply_differences tables.name_to_character bt enc.differences).map
            (fun m => some (decode_single m bytes))
      | none => .ok none

/-- Specification-side: the override that ends up governing byte `b`
after the differences list is applied — the last entry for `b` whose
glyph name resolves.  Later entries take precedence. -/
def last_override (b : Nat) (ntc : String → Option Char) :
    List (Nat × String) → Option Char
  | [] => none
  | (b0, n) :: rest =>
    match last_override b ntc rest with
    | some c => some c
    | none => if b0 = b then ntc n else none

/-- The sequence of complete 2-byte big-endian codes of a byte string
(a trailing odd byte contributes no code). -/
def be_chunks : List Nat → List Nat
  | b0 :: b1 :: rest => (b0 * 256 + b1) :: be_chunks rest
  | _ => []

/-- Concatenation of a list of text fragments. -/
def concat_all : List (List Char) → List Char
  | [] => []
  | s :: rest => s ++ concat_all rest

/-! ## Page-tree collection (src/pdf_reading/mod.rs,
`collect_page_references` / `get_page_references`).

A page-tree node is either an inner `Tree` node (a kid list) or a `Leaf`
page; page identities (`Ref<Page>`) are opaque and modelled as `Nat`. -/

/-- `pdf::object::PagesNode`. -/
inductive PagesNode where
  | tree (kids : List PagesNode)
  | leaf (id : Nat)

/-- The page-tree failure: the `panic!("in too deep")` recursion guard. -/
inductive PdfError where
  | treeTooDeep
deriving DecidableEq

mutual

/-- `collect_page_references`: the depth guard at entry, then the kid
loop.  A `PageTree` is represented by its kid list. -/
def collect_page_references (kids : List PagesNode) (depth : Nat) :
    Except PdfError (List Nat) :=
  if depth = 0 then .error .treeTooDeep
  else collect_kids kids depth
termination_by (sizeOf kids, 1)

/-- The `for kid_ref in &page_tree.kids` loop: inner nodes recurse with
`depth - 1`, leaves push their identity.  A failure (panic) anywhere
aborts the whole collection. -/
def collect_kids (kids : List PagesNode) (depth : Nat) :
    Except PdfError (List Nat) :=
  match kids with
  | [] => .ok []
  | .leaf i :: rest =>
    match collect_kids rest depth with
    | .error e => .error e
    | .ok l => .ok (i :: l)
  | .tree tkids :: rest =>
    match collect_page_references tkids (depth - 1) with
    | .error e => .error e
    | .ok sub =>
      match collect_kids rest depth with
      | .error e => .error e
      | .ok r => .ok (sub ++ r)
termination_by (sizeOf kids, 0)

end

/-- `get_page_references`: run the collector from the root kid list with
the fixed depth bound 16. -/
def get_page_references (kids : List PagesNode) : Except PdfError (List Nat) :=
  collect_page_references kids 16

mutual

/-- Specification-side: nesting contribution of one node (a leaf adds no
tree level). -/
def node_nest : PagesNode → Nat
  | .leaf _ => 0
  | .tree kids => 1 + kids_nest kids

/-- Specification-side: deepest tree-node nesting among a kid list. -/
def kids_nest : List PagesNode → Nat
  | [] => 0
  | k :: rest => max (node_nest k) (kids_nest rest)

end

/-- Specification-side: number of tree levels of a page tree given by its
root kid list (the root `PageTree` itself is one level). -/
def tree_nest (kids : List PagesNode) : Nat :=
  1 + kids_nest kids

mutual

/-- Specification-side: leaves of one node in depth-first order. -/
def leaves_node : PagesNode → List Nat
  | .leaf i => [i]
  | .tree kids => leaves_kids kids

/-- Specification-side: leaves of a kid list in left-to-right depth-first
order. -/
def leaves_kids : List PagesNode → List Nat
  | [] => []
  | k :: rest => leaves_node k ++ leaves_kids rest

end

/-! ## Coordinates and the text matrix (src/pdf_reading/mod.rs,
`Coords` and `Matrix2D`).

Scalars are modelled as `Int`: the claims settled on these definitions
depend only on equality and on the `(y, x)`-lexicographic ordering that
the source derives (field order `y` before `x`), not on floating-point
rounding.  The finiteness checks (`try_into().unwrap()`) always succeed
in this model; the wrapper's own contract is verified separately on bit
patterns (`NoNonsenseF32` above). -/

/-- `Coords`, with the source's field order `y` then `x` — the derived
`Ord` compares `y` first. -/
structure Coords where
  y : Int
  x : Int
deriving DecidableEq

/-- `Coords::default()`: the origin. -/
def Coords.origin : Coords :=
  ⟨0, 0⟩

/-- The derived lexicographic strict order on `Coords`: `y` first, then
`x`. -/
def Coords.ltP (a b : Coords) : Prop :=
  a.y < b.y ∨ (a.y = b.y ∧ a.x < b.x)

instance (a b : Coords) : Decidable (Coords.ltP a b) :=
  inferInstanceAs (Decidable (_ ∨ _))

/-- `Matrix2D`: a row-major 3×3 matrix of scalars. -/
structure Matrix2D where
  a0 : Int
  b0 : Int
  c0 : Int
  a1 : Int
  b1 : Int
  c1 : Int
  a2 : Int
  b2 : Int
  c2 : Int
deriving DecidableEq

/-- `Matrix2D::default()`: the identity matrix. -/
def Matrix2D.identityM : Matrix2D :=
  { a0 := 1, b0 := 0, c0 := 0
    a1 := 0, b1 := 1, c1 := 0
    a2 := 0, b2 := 0, c2 := 1 }

/-- `Matrix2D::apply_to_vector`: the affine image of a position (the
third row is ignored, as in the source). -/
def Matrix2D.apply_to_vector (m : Matrix2D) (v : Coords) : Coords :=
  { x := m.a0 * v.x + m.b0 * v.y + m.c0
    y := m.a1 * v.x + m.b1 * v.y + m.c1 }

/-- The y-axis flip `coords.y = (-f32::from(coords.y)).try_into().unwrap()`
performed by both draw arms (negation of a finite value stays finite, so
the unwrap cannot fail; on `Int` it is total). -/
def neg_y (c : Coords) : Coords :=
  { c with y := -c.y }

/-! ## The per-page accumulator (`BTreeMap<Coords, String>`), modelled as
an association list kept sorted by the `(y, x)` order. -/

/-- `coordinates_to_text.entry(coords).or_insert_with(String::new)
.push_str(..)`: insert at the ordered position, appending on an existing
key. -/
def insert_append : List (Coords × List Char) → Coords → List Char →
    List (Coords × List Char)
  | [], c, t => [(c, t)]
  | (c0, t0) :: rest, c, t =>
    if Coords.ltP c c0 then (c, t) :: (c0, t0) :: rest
    else if c = c0 then (c0, t0 ++ t) :: rest
    else (c0, t0) :: insert_append rest c t

/-! ## The content-stream interpreter (src/main.rs, the `for op in ops`
loop). -/

/-- `pdf::content::TextDrawAdjusted`: the items of an adjusted-draw
operator. -/
inductive TextDrawAdjustedItem where
  | spacing (n : Int)
  | text (bytes : List Nat)

/-- The operators the loop distinguishes; every other operator is
`other`.  `setTextMatrix` carries the six numbers of the operator's
matrix; text operands are carried as raw bytes (`PdfString`). -/
inductive Op where
  | beginText
  | endText
  | setTextMatrix (a b c d e f : Int)
  | textDraw (bytes : List Nat)
  | textFont (name : String)
  | textDrawAdjusted (array : List TextDrawAdjustedItem)
  | other

/-- The interpreter's external collaborators: the page's font resource
table (`page.resources().fonts()`), the pdf crate's
`PdfString::to_string` conversion (`none` is its `Err`), and the
encoding tables. -/
structure InterpEnv where
  fonts : String → Option Font
  pdf_string_to_text : List Nat → Option (List Char)
  tables : EncodingTables

/-- The loop state: `text_matrix`, `current_font`, and the accumulator. -/
structure InterpState where
  text_matrix : Option Matrix2D
  current_font : Option Font
  acc : List (Coords × List Char)

/-- Fatal interpreter failures: the `expect("unknown font")` panic and
decoder panics surfacing from `font_decode`. -/
inductive InterpError where
  | unknownFont
  | decode (e : DecodeError)
deriving DecidableEq

/-- The `for adjustment in array` loop of the adjusted-draw arm: spacing
items are ignored, text items are decoded via `font_decode` and appended
at the (fixed) anchor coordinates; a `None` decode drops the item. -/
def draw_adjusted_items (env : InterpEnv) (coords : Coords) :
    InterpState → List TextDrawAdjustedItem → Except InterpError InterpState
  | st, [] => .ok st
  | st, .spacing _ :: rest => draw_adjusted_items env coords st rest
  | st, .text t :: rest =>
    match font_decode env.tables st.current_font t with
    | .error e => .error (.decode e)
    | .ok none => draw_adjusted_items env coords st rest
    | .ok (some s) =>
      draw_adjusted_items env coords
        { st with acc := insert_append st.acc coords s } rest

/-- One iteration of the operator loop. -/
def step (env : InterpEnv) (st : InterpState) : Op → Except InterpError InterpState
  | .beginText => .ok { st with text_matrix := some Matrix2D.identityM }
  | .endText => .ok { st with text_matrix := none }
  | .setTextMatrix a b c d e f =>
    let m : Matrix2D :=
      { a0 := a, a1 := b, a2 := 0
        b0 := c, b1 := d, b2 := 0
        c0 := e, c1 := f, c2 := 1 }
    .ok { st with text_matrix := some m }
  | .textDraw bytes =>
    match st.text_matrix with
    | none => .ok st
    | some matrix =>
      let coords := neg_y (matrix.apply_to_vector Coords.origin)
      match env.pdf_string_to_text bytes with
      | none => .ok st
      | some s => .ok { st with acc := insert_append st.acc coords s }
  | .textFont name =>
    match env.fonts name with
    | none => .error .unknownFont
    | some f => .ok { st with current_font := some f }
  | .textDrawAdjusted array =>
    match st.text_matrix with
    | none => .ok st
    | some matrix =>
      draw_adjusted_items env (neg_y (matrix.apply_to_vector Coords.origin)) st array
  | .other => .ok st

/-- The whole per-page loop: fold `step` from the initial state (no
matrix, no font, empty accumulator). -/
def run_ops (env : InterpEnv) (ops : List Op) : Except InterpError InterpState :=
  ops.foldlM (step env) ⟨none, none, []⟩

/-! ## Line assembly (src/main.rs, the `lines` BTreeMap). -/

/-- `lines.entry(coordinates.y).or_insert_with(String::new)
.push_str(text)` on the y-keyed ordered map. -/
def update_line : List (Int × List Char) → Int → List Char →
    List (Int × List Char)
  | [], y, t => [(y, t)]
  | (y0, t0) :: rest, y, t =>
    if y < y0 then (y, t) :: (y0, t0) :: rest
    else if y = y0 then (y0, t0 ++ t) :: rest
    else (y0, t0) :: update_line rest y t

/-- The `for (coordinates, text) in &coordinates_to_text` loop: fold the
accumulator, in its iteration order, into the y-keyed line map. -/
def assemble_lines (acc : List (Coords × List Char)) : List (Int × List Char) :=
  acc.foldl (fun lines p => update_line lines p.1.y p.2) []

/-! ## Concrete fixtures used to evaluate the theorems on closed inputs. -/

/-- Tables with no entries at all. -/
def empty_tables : EncodingTables :=
  ⟨fun _ => none, fun _ => none, fun _ => none, fun _ => none, fun _ => none⟩

/-- An environment with no fonts whose string conversion always yields
the text `X`. -/
def env_c1 : InterpEnv :=
  { fonts := fun _ => none
    pdf_string_to_text := fun _ => some ['X']
    tables := empty_tables }

/-- A state inside a text block (identity matrix), no active font. -/
def st_w : InterpState :=
  ⟨some Matrix2D.identityM, none, []⟩

/-- Two tying definitions with equal offsets and no ICAO filter. -/
def tz_defs_w : List TimeZoneDefinition :=
  [ { icao_match := none, iana := ['A'], utc_standard := -8,
      utc_daylight := some (-7) }
  , { icao_match := none, iana := ['B'], utc_standard := -8,
      utc_daylight := some (-7) } ]

/-- A three-level page tree with leaves interleaved with subtrees. -/
def tree_w : List PagesNode :=
  [.leaf 1, .tree [.leaf 2, .tree [.leaf 3], .leaf 4], .leaf 5]

/-- A chain of `n + 1` nested tree nodes around a single leaf. -/
def deep_tree : Nat → List PagesNode
  | 0 => [.leaf 0]
  | n + 1 => [.tree (deep_tree n)]

/-- A name table resolving two glyph names used by the override fixture. -/
def tables_w : EncodingTables :=
  { standard_encoding := fun b => if b = 66 then some 'B' else none
    symbol_encoding := fun _ => none
    mac_roman_encoding := fun _ => none
    win_ansi_encoding := fun _ => none
    name_to_character := fun n =>
      if n = ("early") then some 'E'
      else if n = ("late") then some 'L'
      else none }

/-- Two overrides for the same byte 66: the later one must win over both
the earlier one and the base table. -/
def enc_w : Encoding :=
  ⟨.standardEncoding, [(66, ("early")), (66, ("late"))]⟩

/-- A font carrying only the override fixture encoding. -/
def font_w : Font :=
  ⟨none, some enc_w⟩

/-- A direct map knowing only the 16-bit code 16706 (bytes 65, 66). -/
def itu_w : Nat → Option (List Char) :=
  fun c => if c = 16706 then some ['x'] else none

/-- A font exposing the direct map fixture. -/
def font_direct_w : Font :=
  ⟨some (some itu_w), none⟩

/-- A sorted accumulator: two fragments on line `y = 1`, one on `y = 2`. -/
def acc_w : List (Coords × List Char) :=
  [(⟨1, 1⟩, ['A']), (⟨1, 2⟩, ['B']), (⟨2, 1⟩, ['C'])]

/-! # Theorems -/

/-! ## Supporting lemmas -/

theorem match_timezone_eq_find (defs : List TimeZoneDefinition)
    (icao : List Char) (off : Int) (dst : Option Int) :
    match_timezone defs icao off dst
      = (defs.find? (tz_pred icao off dst)).map (fun tz => tz.iana) := by
  induction defs with
  | nil => rfl
  | cons tz rest ih =>
    cases hm : tz.icao_match with
    | none =>
      by_cases hoff : off = tz.utc_standard
      · by_cases hdst : dst = tz.utc_daylight
        · have hp : tz_pred icao off dst tz = true := by
            simp [tz_pred, hm, hoff, hdst]
          rw [List.find?_cons_of_pos _ hp]
          simp [match_timezone, hm, hoff, hdst]
        · have hp : ¬ tz_pred icao off dst tz = true := by
            simp [tz_pred, hm, hdst]
          rw [List.find?_cons_of_neg _ hp]
          rw [← ih]
          simp [match_timezone, hm, hdst]
      · have hp : ¬ tz_pred icao off dst tz = true := by
          simp [tz_pred, hm, hoff]
        rw [List.find?_cons_of_neg _ hp]
        rw [← ih]
        simp [match_timezone, hm, hoff]
    | some m =>
      cases hmi : m icao with
      | false =>
        have hp : ¬ tz_pred icao off dst tz = true := by
          simp [tz_pred, hm, hmi]
        rw [List.find?_cons_of_neg _ hp]
        rw [← ih]
        simp [match_timezone, hm, hmi]
      | true =>
        by_cases hoff : off = tz.utc_standard
        · by_cases hdst : dst = tz.utc_daylight
          · have hp : tz_pred icao off dst tz = true := by
              simp [tz_pred, hm, hmi, hoff, hdst]
            rw [List.find?_cons_of_pos _ hp]
            simp [match_timezone, hm, hmi, hoff, hdst]
          · have hp : ¬ tz_pred icao off dst tz = true := by
              simp [tz_pred, hm, hmi, hdst]
            rw [List.find?_cons_of_neg _ hp]
            rw [← ih]
            simp [match_timezone, hm, hmi, hdst]
        · have hp : ¬ tz_pred icao off dst tz = true := by
            simp [tz_pred, hm, hmi, hoff]
          rw [List.find?_cons_of_neg _ hp]
          rw [← ih]
          simp [match_timezone, hm, hmi, hoff]

/-! ## Claim theorems -/

theorem collect_kids_eq :
    ∀ (n : Nat) (kids : List PagesNode), sizeOf kids ≤ n → ∀ (d : Nat),
      collect_kids kids d =
        if kids_nest kids ≤ d - 1 then .ok (leaves_kids kids)
        else .error .treeTooDeep := by
  intro n
  induction n with
  | zero =>
    intro kids hs d
    exfalso
    cases kids <;> simp at hs
  | succ n ih =>
    intro kids hs d
    match kids with
    | [] =>
      simp [collect_kids, kids_nest, leaves_kids]
    | .leaf i :: rest =>
      have hr : sizeOf rest ≤ n := by
        simp [List.cons.sizeOf_spec] at hs; omega
      have hnest : kids_nest (.leaf i :: rest) = kids_nest rest := by
        simp [kids_nest, node_nest]
      rw [collect_kids, ih rest hr d, hnest]
      by_cases hc : kids_nest rest ≤ d - 1
      · rw [if_pos hc, if_pos hc]
        simp [leaves_kids, leaves_node]
      · rw [if_neg hc, if_neg hc]
    | .tree tkids :: rest =>
      have ht : sizeOf tkids ≤ n := by
        simp [List.cons.sizeOf_spec, PagesNode.tree.sizeOf_spec] at hs; omega
      have hr : sizeOf rest ≤ n := by
        simp [List.cons.sizeOf_spec] at hs; omega
      by_cases hd : d - 1 = 0
      · have e1 : collect_page_references tkids (d - 1) = .error .treeTooDeep := by
          rw [collect_page_references, if_pos hd]
        have hc2 : ¬ kids_nest (.tree tkids :: rest) ≤ d - 1 := by
          simp [kids_nest, node_nest]; omega
        rw [collect_kids, e1, if_neg hc2]
      · by_cases hct : kids_nest tkids ≤ d - 1 - 1
        · have e1 : collect_page_references tkids (d - 1) = .ok (leaves_kids tkids) := by
            rw [collect_page_references, if_neg hd, ih tkids ht (d - 1), if_pos hct]
          by_cases hcr : kids_nest rest ≤ d - 1
          · have e2 : collect_kids rest d = .ok (leaves_kids rest) := by
              rw [ih rest hr d, if_pos hcr]
            have hc2 : kids_nest (.tree tkids :: rest) ≤ d - 1 := by
              simp [kids_nest, node_nest]; omega
            rw [collect_kids, e1, e2, if_pos hc2]
            simp [leaves_kids, leaves_node]
          · have e2 : collect_kids rest d = .error .treeTooDeep := by
              rw [ih rest hr d, if_neg hcr]
            have hc2 : ¬ kids_nest (.tree tkids :: rest) ≤ d - 1 := by
              simp [kids_nest, node_nest]; omega
            rw [collect_kids, e1, e2, if_neg hc2]
        · have e1 : collect_page_references tkids (d - 1) = .error .treeTooDeep := by
            rw [collect_page_references, if_neg hd, ih tkids ht (d - 1), if_neg hct]
          have hc2 : ¬ kids_nest (.tree tkids :: rest) ≤ d - 1 := by
            simp [kids_nest, node_nest]; omega
          rw [collect_kids, e1, if_neg hc2]

theorem collect_page_references_eq (kids : List PagesNode) (d : Nat) :
    collect_page_references kids d =
      if tree_nest kids ≤ d then .ok (leaves_kids kids)
      else .error .treeTooDeep := by
  rw [collect_page_references, collect_kids_eq (sizeOf kids) kids le_rfl d]
  by_cases hd : d = 0
  · have hnot : ¬ tree_nest kids ≤ d := by rw [tree_nest]; omega
    rw [if_pos hd, if_neg hnot]
  · rw [if_neg hd]
    by_cases hc : kids_nest kids ≤ d - 1
    · have hyes : tree_nest kids ≤ d := by rw [tree_nest]; omega
      rw [if_pos hc, if_pos hyes]
    · have hnot : ¬ tree_nest kids ≤ d := by rw [tree_nest]; omega
      rw [if_neg hc, if_neg hnot]

/-- C4: offset normalization turns the en dash into an ASCII minus, drops
one leading plus or space, and parses the rest as a small signed integer
(`"-5"` ↦ −5, `"+5"` ↦ 5, `" 5"` ↦ 5, the unparseable `"5–"` fails);
reversed-form normalization rotates the single trailing sign character to
the front and then normalizes (`"12-"` ↦ −12, `"5+"` ↦ 5). -/
theorem offset_normalization :
    normalize_offset ['-', '5'] = some (-5)
    ∧ normalize_offset ['+', '5'] = some 5
    ∧ normalize_offset [' ', '5'] = some 5
    ∧ normalize_offset ['5', enDash] = none
    ∧ normalize_reverse_offset ['1', '2', '-'] = some (-12)
    ∧ normalize_reverse_offset ['5', '+'] = some 5
    ∧ (∀ (s : List Char),
        normalize_offset s = parse_i8 (drop_leading_sign (replace_en_dash s)))
    ∧ (∀ (c : Char) (cs : List Char),
        normalize_reverse_offset (cs ++ [c]) = normalize_offset (c :: cs)) := by
  refine ⟨by decide, by decide, by decide, by decide, by decide, by decide,
    fun s => rfl, fun c cs => ?_⟩
  simp [normalize_reverse_offset, List.getLast?_concat, List.dropLast_concat]

/-- C3: the daylight-offset correction replaces a normally-signed
(`utcdst`) daylight value `d` with `-d` exactly when the standard offset
is below −2 and `d` exceeds 2 (so −7 with 5 becomes −5, while −1 with 5
stays 5), and is never applied on the reversed-form (`dstutc`) path. -/
theorem dst_sign_correction (off d : Int) (s : List Char)
    (h : normalize_offset s = some d) :
    compute_dst_offset off (some s) none
        = some (some (if off < -2 ∧ d > 2 then -d else d))
    ∧ compute_dst_offset (-7) (some ['5']) none = some (some (-5))
    ∧ compute_dst_offset (-1) (some ['5']) none = some (some 5)
    ∧ (∀ (t : List Char),
        compute_dst_offset off none (some t)
          = (normalize_reverse_offset t).map some) := by
  refine ⟨?_, by decide, by decide, fun t => rfl⟩
  simp [compute_dst_offset, h, correct_dst]

theorem dst_sign_correction_witness :
    normalize_offset ['5'] = some 5
    ∧ compute_dst_offset (-7) (some ['5']) none
        = some (some (if (-7 : Int) < -2 ∧ (5 : Int) > 2 then -5 else 5)) :=
  ⟨by decide, (dst_sign_correction (-7) 5 ['5'] (by decide)).1⟩

/-- C2: the emitted zone is the first definition in iteration order whose
`icao_match` (if present) accepts the code and whose offsets both compare
equal (absence matching only absence); with no such definition the output
line is the code followed by ` ?`. -/
theorem timezone_matching (defs : List TimeZoneDefinition) (icao : List Char)
    (off : Int) (dst : Option Int) :
    match_timezone defs icao off dst
        = (defs.find? (tz_pred icao off dst)).map (fun tz => tz.iana)
    ∧ (match_timezone defs icao off dst = none →
        emit_record icao (match_timezone defs icao off dst) = icao ++ [' ', '?'])
    ∧ (∀ (z : List Char), match_timezone defs icao off dst = some z →
        emit_record icao (match_timezone defs icao off dst) = icao ++ ' ' :: z) := by
  refine ⟨match_timezone_eq_find defs icao off dst, fun h => ?_, fun z h => ?_⟩
  · rw [h]; rfl
  · rw [h]; rfl

theorem timezone_matching_witness :
    match_timezone tz_defs_w ['K'] (-8) (some (-7)) = some ['A']
    ∧ emit_record ['K'] (match_timezone tz_defs_w ['K'] 0 none)
        = ['K', ' ', '?'] :=
  ⟨(timezone_matching tz_defs_w ['K'] (-8) (some (-7))).1.trans rfl,
   (timezone_matching tz_defs_w ['K'] 0 none).2.1 rfl⟩

/-- C9: on IEEE-754 single-precision bit patterns, wrapping a finite
value in `NoNonsenseF32` and unwrapping it is the identity, and
construction from any non-finite value fails with the value itself. -/
theorem scalar_roundtrip (b : Nat) (_h : b < 2 ^ 32) :
    (f32_is_finite b = true →
      NoNonsenseF32.try_from b = .ok ⟨b⟩ ∧ f32_from ⟨b⟩ = b)
    ∧ (f32_is_finite b = false → NoNonsenseF32.try_from b = .error b) := by
  constructor
  · intro hf
    exact ⟨by simp [NoNonsenseF32.try_from, hf], rfl⟩
  · intro hf
    simp [NoNonsenseF32.try_from, hf]

theorem scalar_roundtrip_witness :
    ((1078530011 : Nat) < 2 ^ 32
      ∧ NoNonsenseF32.try_from 1078530011 = .ok ⟨1078530011⟩
      ∧ f32_from ⟨1078530011⟩ = 1078530011)
    ∧ ((2139095040 : Nat) < 2 ^ 32
      ∧ NoNonsenseF32.try_from 2139095040 = .error 2139095040) :=
  ⟨⟨by decide, (scalar_roundtrip 1078530011 (by decide)).1 (by decide)⟩,
   ⟨by decide, (scalar_roundtrip 2139095040 (by decide)).2 (by decide)⟩⟩

/-- C5: page-tree collection is a depth-first traversal yielding the
leaves in left-to-right document order (`leaves_kids`); it succeeds for
every tree whose tree-node nesting stays within the depth bound 16 and
fails with `TreeTooDeep` for every deeper tree. -/
theorem page_tree_collection (kids : List PagesNode) :
    (tree_nest kids ≤ 16 → get_page_references kids = .ok (leaves_kids kids))
    ∧ (16 < tree_nest kids →
        get_page_references kids = .error .treeTooDeep) := by
  rw [get_page_references, collect_page_references_eq kids 16]
  constructor
  · intro h
    rw [if_pos h]
  · intro h
    rw [if_neg (by omega)]

theorem page_tree_collection_witness :
    (tree_nest tree_w ≤ 16
      ∧ get_page_references tree_w = .ok [1, 2, 3, 4, 5])
    ∧ (16 < tree_nest (deep_tree 16)
      ∧ get_page_references (deep_tree 16) = .error .treeTooDeep) :=
  ⟨⟨by decide, ((page_tree_collection tree_w).1 (by decide)).trans rfl⟩,
   ⟨by decide, (page_tree_collection (deep_tree 16)).2 (by decide)⟩⟩

theorem apply_differences_eq (ntc : String → Option Char) :
    ∀ (ds : List (Nat × String)) (m : Nat → Option Char),
      (∀ p ∈ ds, p.1 < 256) →
      apply_differences ntc m ds = .ok (fun b =>
        match last_override b ntc ds with
        | some c => some c
        | none => m b) := by
  intro ds
  induction ds with
  | nil =>
    intro m _
    simp [apply_differences, last_override]
  | cons p rest ih =>
    intro m h
    obtain ⟨b0, n⟩ := p
    have hb : b0 < 256 := h (b0, n) (List.mem_cons_self _ _)
    have hrest : ∀ q ∈ rest, q.1 < 256 :=
      fun q hq => h q (List.mem_cons_of_mem _ hq)
    cases hn : ntc n with
    | some c =>
      have e1 : apply_differences ntc m ((b0, n) :: rest)
          = apply_differences ntc (map_insert m b0 c) rest := by
        rw [apply_differences, if_pos hb, hn]
      rw [e1, ih (map_insert m b0 c) hrest]
      congr 1
      funext b
      show _ = (match last_override b ntc ((b0, n) :: rest) with
        | some c2 => some c2
        | none => m b)
      rw [last_override]
      cases last_override b ntc rest with
      | some c2 => rfl
      | none =>
        by_cases hbb : b0 = b
        · subst hbb
          simp [map_insert, hn]
        · simp [map_insert, hbb, Ne.symm hbb]
    | none =>
      have e1 : apply_differences ntc m ((b0, n) :: rest)
          = apply_differences ntc m rest := by
        rw [apply_differences, if_pos hb, hn]
      rw [e1, ih m hrest]
      congr 1
      funext b
      show _ = (match last_override b ntc ((b0, n) :: rest) with
        | some c2 => some c2
        | none => m b)
      rw [last_override]
      cases last_override b ntc rest with
      | some c2 => rfl
      | none =>
        by_cases hbb : b0 = b
        · subst hbb
          simp [hn]
        · simp [hbb]

/-- C6: with a supported base encoding, decoding starts from the matching
built-in table, each override whose glyph name resolves in the name table
replaces that byte's mapping (later overrides win over the base table and
over earlier overrides), and every unmapped single byte is silently
dropped. -/
theorem font_decode_base_encoding (tables : EncodingTables) (font : Font)
    (bytes : List Nat) (enc : Encoding) (bt : Nat → Option Char)
    (h1 : font.to_unicode = none) (h2 : font.encoding = some enc)
    (h3 : base_table tables enc.base = some bt)
    (h4 : ∀ p ∈ enc.differences, p.1 < 256) :
    font_decode tables (some font) bytes
        = .ok (some (decode_single (fun b =>
            match last_override b tables.name_to_character enc.differences with
            | some c => some c
            | none => bt b) bytes))
    ∧ (∀ (ds : List (Nat × String)) (b : Nat) (nm : String) (c : Char),
        tables.name_to_character nm = some c →
        last_override b tables.name_to_character (ds ++ [(b, nm)]) = some c) := by
  constructor
  · simp only [font_decode, h1, h2, h3,
      apply_differences_eq tables.name_to_character enc.differences bt h4]
    rfl
  · intro ds b nm c hc
    induction ds with
    | nil => simp [last_override, hc]
    | cons p rest ih =>
      rw [List.cons_append, last_override, ih]

theorem font_decode_base_encoding_witness :
    font_w.to_unicode = none
    ∧ font_w.encoding = some enc_w
    ∧ base_table tables_w enc_w.base = some tables_w.standard_encoding
    ∧ (∀ p ∈ enc_w.differences, p.1 < 256)
    ∧ font_decode tables_w (some font_w) [66, 67] = .ok (some ['L'])
    ∧ last_override 66 tables_w.name_to_character
        ((66, ("early")) :: [(66, ("late"))]) = some 'L' :=
  ⟨rfl, rfl, rfl, by decide,
   ((font_decode_base_encoding tables_w font_w [66, 67] enc_w
      tables_w.standard_encoding rfl rfl rfl (by decide)).1).trans rfl,
   (font_decode_base_encoding tables_w font_w [66, 67] enc_w
      tables_w.standard_encoding rfl rfl rfl (by decide)).2
     [(66, ("early"))] 66 ("late") 'L' rfl⟩

theorem decode_direct_even (itu : Nat → Option (List Char)) :
    ∀ (n : Nat) (bytes : List Nat), bytes.length ≤ n → bytes.length % 2 = 0 →
      decode_direct itu bytes =
        if ∀ c ∈ be_chunks bytes, (itu c).isSome then
          .ok (concat_all ((be_chunks bytes).filterMap itu))
        else .error .unmappableCode := by
  intro n
  induction n with
  | zero =>
    intro bytes hl hp
    match bytes with
    | [] => simp [decode_direct, be_chunks, concat_all]
    | _ :: _ => simp at hl
  | succ n ih =>
    intro bytes hl hp
    match bytes with
    | [] => simp [decode_direct, be_chunks, concat_all]
    | [b] => simp at hp
    | b0 :: b1 :: rest =>
      have hr : rest.length ≤ n := by simp at hl; omega
      have hrp : rest.length % 2 = 0 := by simp at hp; omega
      rw [decode_direct]
      cases hcode : itu (b0 * 256 + b1) with
      | none =>
        have hnot : ¬ ∀ c ∈ be_chunks (b0 :: b1 :: rest), (itu c).isSome := by
          intro hall
          have := hall (b0 * 256 + b1) (by rw [be_chunks]; exact List.mem_cons_self _ _)
          rw [hcode] at this
          simp at this
        rw [if_neg hnot]
      | some s =>
        rw [ih rest hr hrp]
        by_cases hall : ∀ c ∈ be_chunks rest, (itu c).isSome
        · have hall2 : ∀ c ∈ be_chunks (b0 :: b1 :: rest), (itu c).isSome := by
            rw [be_chunks]
            intro c hcm
            rcases List.mem_cons.mp hcm with hc | hc
            · rw [hc, hcode]; rfl
            · exact hall c hc
          rw [if_pos hall, if_pos hall2]
          show _ = Except.ok (concat_all (((b0 * 256 + b1) :: be_chunks rest).filterMap itu))
          rw [List.filterMap_cons_some hcode]
          rfl
        · have hnot2 : ¬ ∀ c ∈ be_chunks (b0 :: b1 :: rest), (itu c).isSome := by
            intro hall2
            exact hall (fun c hc => hall2 c (by rw [be_chunks]; exact List.mem_cons_of_mem _ hc))
          rw [if_neg hall, if_neg hnot2]

/-- C7: with a direct index-to-text map, the input is consumed as 2-byte
big-endian codes whose texts are appended in order, and any code absent
from the map aborts with the fatal `UnmappableCode` error instead of
being skipped. -/
theorem font_decode_direct_map (tables : EncodingTables) (font : Font)
    (itu : Nat → Option (List Char)) (bytes : List Nat)
    (h1 : font.to_unicode = some (some itu)) (h2 : bytes.length % 2 = 0) :
    ((∀ c ∈ be_chunks bytes, (itu c).isSome) →
      font_decode tables (some font) bytes
        = .ok (some (concat_all ((be_chunks bytes).filterMap itu))))
    ∧ ((∃ c ∈ be_chunks bytes, itu c = none) →
      font_decode tables (some font) bytes = .error .unmappableCode) := by
  have hd := decode_direct_even itu bytes.length bytes le_rfl h2
  constructor
  · intro hall
    simp only [font_decode, h1]
    rw [hd, if_pos hall]
    rfl
  · intro hsome
    have hnot : ¬ ∀ c ∈ be_chunks bytes, (itu c).isSome := by
      intro hall
      obtain ⟨c, hcm, hc⟩ := hsome
      have := hall c hcm
      rw [hc] at this
      simp at this
    simp only [font_decode, h1]
    rw [hd, if_neg hnot]
    rfl

theorem font_decode_direct_map_witness :
    font_direct_w.to_unicode = some (some itu_w)
    ∧ ([65, 66, 65, 66] : List Nat).length % 2 = 0
    ∧ (∀ c ∈ be_chunks [65, 66, 65, 66], (itu_w c).isSome)
    ∧ font_decode tables_w (some font_direct_w) [65, 66, 65, 66]
        = .ok (some ['x', 'x']) :=
  ⟨rfl, by decide, by decide,
   ((font_decode_direct_map tables_w font_direct_w itu_w [65, 66, 65, 66]
      rfl (by decide)).1 (by decide)).trans rfl⟩

theorem decode_direct_odd (itu : Nat → Option (List Char)) :
    ∀ (n : Nat) (bytes : List Nat), bytes.length ≤ n → bytes.length % 2 = 1 →
      (∀ s, decode_direct itu bytes ≠ .ok s)
      ∧ ((∀ c ∈ be_chunks bytes, (itu c).isSome) →
        decode_direct itu bytes = .error .sliceOutOfBounds) := by
  intro n
  induction n with
  | zero =>
    intro bytes hl hp
    match bytes with
    | [] => simp at hp
    | _ :: _ => simp at hl
  | succ n ih =>
    intro bytes hl hp
    match bytes with
    | [] => simp at hp
    | [b] =>
      constructor
      · intro s
        simp [decode_direct]
      · intro _
        rfl
    | b0 :: b1 :: rest =>
      have hr : rest.length ≤ n := by simp at hl; omega
      have hrp : rest.length % 2 = 1 := by simp at hp; omega
      cases hcode : itu (b0 * 256 + b1) with
      | none =>
        constructor
        · intro s
          rw [decode_direct, hcode]
          simp
        · intro hall
          exfalso
          have := hall (b0 * 256 + b1) (by rw [be_chunks]; exact List.mem_cons_self _ _)
          rw [hcode] at this
          simp at this
      | some s =>
        obtain ⟨ihne, iherr⟩ := ih rest hr hrp
        constructor
        · intro t
          rw [decode_direct, hcode]
          cases hdr : decode_direct itu rest with
          | error e => simp
          | ok r => exact absurd hdr (ihne r)
        · intro hall
          have hrest : ∀ c ∈ be_chunks rest, (itu c).isSome := by
            intro c hc
            exact hall c (by rw [be_chunks]; exact List.mem_cons_of_mem _ hc)
          rw [decode_direct, hcode, iherr hrest]

/-- C10: with a direct index-to-text map, decoding can only succeed on
even-length input; on every odd-length input it fails, and — whenever all
complete leading 2-byte codes are mapped — the failure is specifically the
out-of-bounds slice panic on the final truncated chunk. -/
theorem font_decode_odd_length (tables : EncodingTables) (font : Font)
    (itu : Nat → Option (List Char)) (bytes : List Nat)
    (h1 : font.to_unicode = some (some itu)) (h2 : bytes.length % 2 = 1) :
    (∀ s, font_decode tables (some font) bytes ≠ .ok s)
    ∧ ((∀ c ∈ be_chunks bytes, (itu c).isSome) →
      font_decode tables (some font) bytes = .error .sliceOutOfBounds) := by
  obtain ⟨hne, herr⟩ := decode_direct_odd itu bytes.length bytes le_rfl h2
  constructor
  · intro s
    simp only [font_decode, h1]
    cases hdr : decode_direct itu bytes with
    | error e => simp [Except.map]
    | ok r => exact absurd hdr (hne r)
  · intro hall
    simp only [font_decode, h1]
    rw [herr hall]
    rfl

theorem update_line_bound (z : Int) :
    ∀ (L : List (Int × List Char)) (y : Int) (t : List Char),
      z < y → (∀ a ∈ L, z < a.1) → ∀ b ∈ update_line L y t, z < b.1 := by
  intro L
  induction L with
  | nil =>
    intro y t hy _ b hb
    rw [update_line] at hb
    rw [List.mem_singleton.mp hb]
    exact hy
  | cons p rest ih =>
    intro y t hy hL b hb
    obtain ⟨y0, t0⟩ := p
    rw [update_line] at hb
    by_cases h1 : y < y0
    · rw [if_pos h1] at hb
      rcases List.mem_cons.mp hb with rfl | hb2
      · exact hy
      · exact hL b hb2
    · rw [if_neg h1] at hb
      by_cases h2 : y = y0
      · rw [if_pos h2] at hb
        rcases List.mem_cons.mp hb with rfl | hb2
        · exact hL (y0, t0) (List.mem_cons_self _ _)
        · exact hL b (List.mem_cons_of_mem _ hb2)
      · rw [if_neg h2] at hb
        rcases List.mem_cons.mp hb with rfl | hb2
        · exact hL (y0, t0) (List.mem_cons_self _ _)
        · exact ih y t hy (fun a ha => hL a (List.mem_cons_of_mem _ ha)) b hb2

theorem update_line_sorted :
    ∀ (L : List (Int × List Char)) (y : Int) (t : List Char),
      List.Pairwise (fun a b => a.1 < b.1) L →
      List.Pairwise (fun a b => a.1 < b.1) (update_line L y t) := by
  intro L
  induction L with
  | nil =>
    intro y t _
    rw [update_line]
    exact List.pairwise_singleton _ _
  | cons p rest ih =>
    intro y t h
    obtain ⟨y0, t0⟩ := p
    rw [List.pairwise_cons] at h
    obtain ⟨hall, htail⟩ := h
    rw [update_line]
    by_cases h1 : y < y0
    · rw [if_pos h1]
      refine List.Pairwise.cons ?_ (List.Pairwise.cons hall htail)
      intro b hb
      rcases List.mem_cons.mp hb with rfl | hb2
      · exact h1
      · exact lt_trans h1 (hall b hb2)
    · rw [if_neg h1]
      by_cases h2 : y = y0
      · rw [if_pos h2]
        exact List.Pairwise.cons hall htail
      · rw [if_neg h2]
        have hy0 : y0 < y := by omega
        exact List.Pairwise.cons (update_line_bound y0 rest y t hy0 hall) (ih y t htail)

theorem update_line_lookup (z : Int) :
    ∀ (L : List (Int × List Char)) (y : Int) (t : List Char),
      List.Pairwise (fun a b => a.1 < b.1) L →
      List.lookup z (update_line L y t)
        = if z = y then some (((List.lookup z L).getD []) ++ t)
          else List.lookup z L := by
  intro L
  induction L with
  | nil =>
    intro y t _
    rw [update_line]
    by_cases hz : z = y
    · subst hz
      simp [List.lookup_cons]
    · have hzf : (z == y) = false := by simp [hz]
      simp [List.lookup_cons, hzf, hz]
  | cons p rest ih =>
    intro y t h
    obtain ⟨y0, t0⟩ := p
    rw [List.pairwise_cons] at h
    obtain ⟨hall, htail⟩ := h
    rw [update_line]
    by_cases h1 : y < y0
    · rw [if_pos h1]
      by_cases hz : z = y
      · subst hz
        have hzz : (z == z) = true := by simp
        have e1 : List.lookup z ((z, t) :: (y0, t0) :: rest) = some t := by
          rw [List.lookup_cons, hzz]
        have hnone : List.lookup z ((y0, t0) :: rest) = none := by
          rw [List.lookup_eq_none_iff]
          intro p hp
          rcases List.mem_cons.mp hp with rfl | hp2
          · simp only [bne_iff_ne, ne_eq]
            omega
          · have := hall p hp2
            simp only [bne_iff_ne, ne_eq]
            omega
        rw [e1, if_pos rfl, hnone]
        simp
      · have hzf : (z == y) = false := by simp [hz]
        have e1 : List.lookup z ((y, t) :: (y0, t0) :: rest)
            = List.lookup z ((y0, t0) :: rest) := by
          rw [List.lookup_cons, hzf]
        rw [e1, if_neg hz]
    · rw [if_neg h1]
      by_cases h2 : y = y0
      · subst h2
        rw [if_pos rfl]
        by_cases hz : z = y
        · subst hz
          have hzz : (z == z) = true := by simp
          have e1 : List.lookup z ((z, t0 ++ t) :: rest) = some (t0 ++ t) := by
            rw [List.lookup_cons, hzz]
          have e2 : List.lookup z ((z, t0) :: rest) = some t0 := by
            rw [List.lookup_cons, hzz]
          rw [e1, if_pos rfl, e2]
          simp
        · have hzf : (z == y) = false := by simp [hz]
          have e1 : List.lookup z ((y, t0 ++ t) :: rest) = List.lookup z rest := by
            rw [List.lookup_cons, hzf]
          have e2 : List.lookup z ((y, t0) :: rest) = List.lookup z rest := by
            rw [List.lookup_cons, hzf]
          rw [e1, if_neg hz, e2]
      · rw [if_neg h2]
        have hy0 : y0 < y := by omega
        by_cases hz0 : z = y0
        · subst hz0
          have hzz : (z == z) = true := by simp
          have hzy : ¬ z = y := by omega
          have e1 : List.lookup z ((z, t0) :: update_line rest y t) = some t0 := by
            rw [List.lookup_cons, hzz]
          have e2 : List.lookup z ((z, t0) :: rest) = some t0 := by
            rw [List.lookup_cons, hzz]
          rw [e1, if_neg hzy, e2]
        · have hzf : (z == y0) = false := by simp [hz0]
          have e1 : List.lookup z ((y0, t0) :: update_line rest y t)
              = List.lookup z (update_line rest y t) := by
            rw [List.lookup_cons, hzf]
          have e2 : List.lookup z ((y0, t0) :: rest) = List.lookup z rest := by
            rw [List.lookup_cons, hzf]
          rw [e1, ih y t htail, e2]

theorem fold_update_lookup (z : Int) :
    ∀ (ps : List (Int × List Char)) (L : List (Int × List Char)),
      List.Pairwise (fun a b => a.1 < b.1) L →
      List.lookup z (ps.foldl (fun lines p => update_line lines p.1 p.2) L)
        = (if (ps.filter (fun p => p.1 == z)).isEmpty then List.lookup z L
           else some (((List.lookup z L).getD [])
             ++ concat_all ((ps.filter (fun p => p.1 == z)).map Prod.snd))) := by
  intro ps
  induction ps with
  | nil =>
    intro L _
    simp
  | cons p rest ih =>
    intro L hL
    obtain ⟨py, pt⟩ := p
    rw [List.foldl_cons]
    rw [ih (update_line L py pt) (update_line_sorted L py pt hL)]
    by_cases hz : py = z
    · subst hz
      have hfc : List.filter (fun p => p.1 == py) ((py, pt) :: rest)
          = (py, pt) :: List.filter (fun p => p.1 == py) rest := by
        simp
      rw [hfc]
      have hlk : List.lookup py (update_line L py pt)
          = some (((List.lookup py L).getD []) ++ pt) := by
        rw [update_line_lookup py L py pt hL, if_pos rfl]
      by_cases he : (rest.filter (fun p => p.1 == py)).isEmpty
      · rw [if_pos he, hlk]
        have hre : rest.filter (fun p => p.1 == py) = [] :=
          List.isEmpty_iff.mp he
        rw [if_neg (by simp), hre]
        simp [concat_all]
      · rw [if_neg he, hlk]
        rw [if_neg (by simp)]
        have hres : (rest.filter (fun p => p.1 == py)).map Prod.snd
            = (rest.filter (fun p => p.1 == py)).map Prod.snd := rfl
        simp only [List.map_cons, concat_all, Option.getD_some]
        rw [List.append_assoc]
    · have hfc : List.filter (fun p => p.1 == z) ((py, pt) :: rest)
          = List.filter (fun p => p.1 == z) rest := by
        simp [hz]
      rw [hfc]
      have hlk : List.lookup z (update_line L py pt) = List.lookup z L := by
        rw [update_line_lookup z L py pt hL, if_neg (fun hc => hz hc.symm)]
      rw [hlk]

theorem coords_ltP_trans {a b c : Coords} :
    Coords.ltP a b → Coords.ltP b c → Coords.ltP a c := by
  intro h1 h2
  simp only [Coords.ltP] at h1 h2 ⊢
  omega

theorem coords_ltP_of_not {a b : Coords} (h1 : ¬ Coords.ltP a b)
    (h2 : ¬ a = b) : Coords.ltP b a := by
  obtain ⟨ay, ax⟩ := a
  obtain ⟨cy, cx⟩ := b
  simp only [Coords.ltP] at h1 ⊢
  simp only [Coords.mk.injEq, not_and] at h2
  by_cases hy : ay = cy
  · have hx : ¬ ax = cx := h2 hy
    omega
  · omega

theorem insert_append_bound (z : Coords) :
    ∀ (L : List (Coords × List Char)) (c : Coords) (t : List Char),
      Coords.ltP z c → (∀ a ∈ L, Coords.ltP z a.1) →
      ∀ b ∈ insert_append L c t, Coords.ltP z b.1 := by
  intro L
  induction L with
  | nil =>
    intro c t hc _ b hb
    rw [insert_append] at hb
    rw [List.mem_singleton.mp hb]
    exact hc
  | cons p rest ih =>
    intro c t hc hL b hb
    obtain ⟨c0, t0⟩ := p
    rw [insert_append] at hb
    by_cases h1 : Coords.ltP c c0
    · rw [if_pos h1] at hb
      rcases List.mem_cons.mp hb with rfl | hb2
      · exact hc
      · exact hL b hb2
    · rw [if_neg h1] at hb
      by_cases h2 : c = c0
      · rw [if_pos h2] at hb
        rcases List.mem_cons.mp hb with rfl | hb2
        · exact hL (c0, t0) (List.mem_cons_self _ _)
        · exact hL b (List.mem_cons_of_mem _ hb2)
      · rw [if_neg h2] at hb
        rcases List.mem_cons.mp hb with rfl | hb2
        · exact hL (c0, t0) (List.mem_cons_self _ _)
        · exact ih c t hc (fun a ha => hL a (List.mem_cons_of_mem _ ha)) b hb2

theorem insert_append_sorted :
    ∀ (L : List (Coords × List Char)) (c : Coords) (t : List Char),
      List.Pairwise (fun p q => Coords.ltP p.1 q.1) L →
      List.Pairwise (fun p q => Coords.ltP p.1 q.1) (insert_append L c t) := by
  intro L
  induction L with
  | nil =>
    intro c t _
    rw [insert_append]
    exact List.pairwise_singleton _ _
  | cons p rest ih =>
    intro c t h
    obtain ⟨c0, t0⟩ := p
    rw [List.pairwise_cons] at h
    obtain ⟨hall, htail⟩ := h
    rw [insert_append]
    by_cases h1 : Coords.ltP c c0
    · rw [if_pos h1]
      refine List.Pairwise.cons ?_ (List.Pairwise.cons hall htail)
      intro b hb
      rcases List.mem_cons.mp hb with rfl | hb2
      · exact h1
      · exact coords_ltP_trans h1 (hall b hb2)
    · rw [if_neg h1]
      by_cases h2 : c = c0
      · rw [if_pos h2]
        exact List.Pairwise.cons hall htail
      · rw [if_neg h2]
        have hc0 : Coords.ltP c0 c := coords_ltP_of_not h1 h2
        exact List.Pairwise.cons
          (insert_append_bound c0 rest c t hc0 hall) (ih c t htail)

theorem assemble_via_mapped :
    ∀ (acc : List (Coords × List Char)) (L : List (Int × List Char)),
      acc.foldl (fun lines p => update_line lines p.1.y p.2) L
        = (acc.map (fun p => (p.1.y, p.2))).foldl
            (fun lines p => update_line lines p.1 p.2) L := by
  intro acc
  induction acc with
  | nil => intro L; rfl
  | cons p rest ih =>
    intro L
    rw [List.map_cons, List.foldl_cons, List.foldl_cons, ih]

/-- C8: line reconstruction groups the accumulator by exact equality of
the `y` coordinate, concatenating within each group in ascending `x`
order; the grouping is valid because the accumulator order (which
`insert_append` maintains) is sorted by `(y, x)`. -/
theorem line_reconstruction (acc : List (Coords × List Char)) (y : Int)
    (h : List.Pairwise (fun p q => Coords.ltP p.1 q.1) acc) :
    (List.lookup y (assemble_lines acc)
      = (if (acc.filter (fun p => p.1.y == y)).isEmpty then none
         else some (concat_all ((acc.filter (fun p => p.1.y == y)).map Prod.snd))))
    ∧ List.Pairwise (fun a b => a < b)
        ((acc.filter (fun p => p.1.y == y)).map (fun p => p.1.x))
    ∧ (∀ (acc2 : List (Coords × List Char)) (c : Coords) (t : List Char),
        List.Pairwise (fun p q => Coords.ltP p.1 q.1) acc2 →
        List.Pairwise (fun p q => Coords.ltP p.1 q.1) (insert_append acc2 c t)) := by
  refine ⟨?_, ?_, fun acc2 c t h2 => insert_append_sorted acc2 c t h2⟩
  · rw [assemble_lines, assemble_via_mapped acc [],
      fold_update_lookup y (acc.map (fun p => (p.1.y, p.2))) [] List.Pairwise.nil]
    rw [List.filter_map, List.map_map]
    simp only [Function.comp_def, List.isEmpty_eq_true, List.map_eq_nil_iff]
    rfl
  · have hf : List.Pairwise (fun p q => Coords.ltP p.1 q.1)
        (acc.filter (fun p => p.1.y == y)) :=
      h.sublist (List.filter_sublist _)
    have hmem : ∀ p ∈ acc.filter (fun p => p.1.y == y), p.1.y = y := by
      intro p hp
      have := (List.mem_filter.mp hp).2
      simpa using this
    rw [List.pairwise_map]
    refine hf.imp_of_mem ?_
    intro a b ha hb hR
    have hay := hmem a ha
    have hby := hmem b hb
    simp only [Coords.ltP] at hR
    omega

theorem line_reconstruction_witness :
    List.Pairwise (fun p q => Coords.ltP p.1 q.1) acc_w
    ∧ List.lookup 1 (assemble_lines acc_w) = some ['A', 'B']
    ∧ List.Pairwise (fun a b => a < b)
        ((acc_w.filter (fun p => p.1.y == 1)).map (fun p => p.1.x)) :=
  ⟨by decide, ((line_reconstruction acc_w 1 (by decide)).1).trans (by decide),
   (line_reconstruction acc_w 1 (by decide)).2.1⟩

theorem draw_adjusted_no_font (env : InterpEnv) (coords : Coords)
    (st : InterpState) (h : st.current_font = none) :
    ∀ (items : List TextDrawAdjustedItem),
      draw_adjusted_items env coords st items = .ok st := by
  intro items
  induction items with
  | nil => rfl
  | cons it rest ih =>
    cases it with
    | spacing n =>
      rw [draw_adjusted_items]
      exact ih
    | text t =>
      rw [draw_adjusted_items, h]
      exact ih

/-- C1 counterexample: the claim requires a `Draw text` fragment to be
dropped when no font is active, but the `Op::TextDraw` arm never consults
`current_font` — it converts the operand with the external
`PdfString::to_string` instead of the §4.2 decoder.  Running
`[BeginText, TextDraw [88]]` in an environment with no fonts (and a
string conversion yielding `X`) leaves `current_font = none` yet appends
`X` to the accumulator. -/
theorem text_draw_ignores_font_counterexample :
    (run_ops env_c1 [Op.beginText, Op.textDraw [88]]).map
        (fun st => (st.current_font.isNone, st.acc))
      = .ok (true, [(⟨0, 0⟩, ['X'])]) := rfl

/-- C1 (amended): with a text transform active, a `Draw text` operand is
converted by the external string-to-text conversion regardless of the
active font (dropped only if that conversion fails) and appended at the
computed position, while `Draw text with per-glyph adjustments` items are
decoded via §4.2 (`font_decode`) with the active font — producing no text
when no font is active — and appended at the computed position on
success. -/
theorem text_draw_decoding (env : InterpEnv) (st : InterpState)
    (matrix : Matrix2D) (bytes : List Nat) (s : List Char)
    (items : List TextDrawAdjustedItem)
    (h : st.text_matrix = some matrix) :
    (env.pdf_string_to_text bytes = some s →
      step env st (.textDraw bytes)
        = .ok { st with acc := (insert_append st.acc
            (neg_y (matrix.apply_to_vector Coords.origin)) s) })
    ∧ (env.pdf_string_to_text bytes = none →
      step env st (.textDraw bytes) = .ok st)
    ∧ (st.current_font = none →
      step env st (.textDrawAdjusted items) = .ok st)
    ∧ (font_decode env.tables st.current_font bytes = .ok (some s) →
      step env st (.textDrawAdjusted [.text bytes])
        = .ok { st with acc := (insert_append st.acc
            (neg_y (matrix.apply_to_vector Coords.origin)) s) }) := by
  refine ⟨fun hs => ?_, fun hs => ?_, fun hfont => ?_, fun hdec => ?_⟩
  · simp only [step, h, hs]
  · simp only [step, h, hs]
  · simp only [step, h]
    exact draw_adjusted_no_font env _ st hfont items
  · simp only [step, h, draw_adjusted_items, hdec]

theorem text_draw_decoding_witness :
    st_w.text_matrix = some Matrix2D.identityM
    ∧ ((env_c1.pdf_string_to_text [88] = some ['X'] →
        step env_c1 st_w (.textDraw [88])
          = .ok { st_w with acc := (insert_append st_w.acc
              (neg_y (Matrix2D.identityM.apply_to_vector Coords.origin)) ['X']) })
      ∧ (env_c1.pdf_string_to_text [88] = none →
        step env_c1 st_w (.textDraw [88]) = .ok st_w)
      ∧ (st_w.current_font = none →
        step env_c1 st_w (.textDrawAdjusted []) = .ok st_w)
      ∧ (font_decode env_c1.tables st_w.current_font [88] = .ok (some ['X']) →
        step env_c1 st_w (.textDrawAdjusted [.text [88]])
          = .ok { st_w with acc := (insert_append st_w.acc
              (neg_y (Matrix2D.identityM.apply_to_vector Coords.origin)) ['X']) })) :=
  ⟨rfl, text_draw_decoding env_c1 st_w Matrix2D.identityM [88] ['X'] [] rfl⟩

theorem font_decode_odd_length_witness :
    font_direct_w.to_unicode = some (some itu_w)
    ∧ ([65, 66, 65] : List Nat).length % 2 = 1
    ∧ (∀ c ∈ be_chunks [65, 66, 65], (itu_w c).isSome)
    ∧ font_decode tables_w (some font_direct_w) [65, 66, 65]
        = .error .sliceOutOfBounds :=
  ⟨rfl, by decide, by decide,
   (font_decode_odd_length tables_w font_direct_w itu_w [65, 66, 65]
      rfl (by decide)).2 (by decide)⟩

end AirfieldTimezones
